import Mathlib

/-
Verification of the checkers engine (alpha-beta-checkers).

The definitions below are a shallow embedding of `src/checkersRefactor.py`
(the most structured of the three near-identical implementations, and the
one the claims cite first).  Python's float arithmetic is modelled by real
numbers; the 8x8 array of one-character strings is modelled by a total
function from coordinates to a `Piece` datatype (all accesses performed by
the code are proven in bounds, see the safety theorem).  Names follow the
Python source; the field `end` of `Move` is renamed `stop` because `end`
is a Lean keyword.
-/

namespace Checkers

/-- Game phases, from `GamePhase` in the source. -/
inductive GamePhase where
  | OPENING
  | MIDDLE
  | ENDGAME
deriving DecidableEq, Repr

/-- The two players, from `Player` in the source. -/
inductive Player where
  | X
  | O
deriving DecidableEq, Repr

/-- Board cell contents, from `PieceType`: `'.'`, `'x'`, `'o'`, `'D'`, `'d'`. -/
inductive Piece where
  | empty
  | x
  | o
  | xKing
  | oKing
deriving DecidableEq, Repr

/-- A board coordinate, from `Position` (row, col as Python ints). -/
structure Position where
  row : Int
  col : Int
deriving DecidableEq, Repr

/-- `Position.is_valid`: both coordinates in `[0, 8)`. -/
def Position.is_valid (p : Position) : Bool :=
  decide (0 ≤ p.row) && decide (p.row < 8) && decide (0 ≤ p.col) && decide (p.col < 8)

/-- `Position.__add__`: componentwise sum. -/
def Position.add (p q : Position) : Position :=
  ⟨p.row + q.row, p.col + q.col⟩

/-- `Position.manhattan_distance`. -/
def Position.manhattan_distance (p q : Position) : Int :=
  (p.row - q.row).natAbs + (p.col - q.col).natAbs

/-- A move, from `Move`; the Python field `end` is called `stop` here. -/
structure Move where
  start : Position
  stop : Position
  is_capture : Bool := false
  captured_position : Option Position := none
deriving DecidableEq, Repr

/-- A board maps every coordinate to a piece (the Python 8x8 list of lists;
positions outside the grid are never read or written by the embedded code). -/
def Board := Position → Piece

/-- `CheckersBoard.get_piece`. -/
def get_piece (b : Board) (p : Position) : Piece := b p

/-- `CheckersBoard.set_piece`. -/
def set_piece (b : Board) (p : Position) (pc : Piece) : Board :=
  fun q => if q = p then pc else b q

/-- `CheckersBoard.remove_piece`: replace by `EMPTY`. -/
def remove_piece (b : Board) (p : Position) : Board :=
  set_piece b p Piece.empty

/-- `CheckersBoard.clone`: a deep copy, pointwise identical to the source. -/
def clone (b : Board) : Board := fun q => get_piece b q

/-- `CheckersBoard._setup_board`: O men on rows 0-2, X men on rows 5-7,
dark squares (`(row+col) % 2 == 1`) only. -/
def initialBoard : Board := fun p =>
  if 0 ≤ p.row ∧ p.row < 3 ∧ 0 ≤ p.col ∧ p.col < 8 ∧ (p.row + p.col) % 2 = 1 then
    Piece.o
  else if 5 ≤ p.row ∧ p.row < 8 ∧ 0 ≤ p.col ∧ p.col < 8 ∧ (p.row + p.col) % 2 = 1 then
    Piece.x
  else Piece.empty

/-- `CheckersBoard.is_empty`. -/
def is_empty (b : Board) (p : Position) : Bool :=
  get_piece b p = Piece.empty

/-- `CheckersBoard.is_enemy_piece`. -/
def is_enemy_piece (b : Board) (p : Position) (pl : Player) : Bool :=
  match pl with
  | Player.X => get_piece b p = Piece.o ∨ get_piece b p = Piece.oKing
  | Player.O => get_piece b p = Piece.x ∨ get_piece b p = Piece.xKing

/-- `CheckersBoard.is_player_piece`. -/
def is_player_piece (b : Board) (p : Position) (pl : Player) : Bool :=
  match pl with
  | Player.X => get_piece b p = Piece.x ∨ get_piece b p = Piece.xKing
  | Player.O => get_piece b p = Piece.o ∨ get_piece b p = Piece.oKing

/-- `CheckersBoard.promote_if_needed`: an X man on row 0 becomes an X king,
an O man on row 7 becomes an O king. -/
def promote_if_needed (b : Board) (p : Position) : Board :=
  if get_piece b p = Piece.x ∧ p.row = 0 then set_piece b p Piece.xKing
  else if get_piece b p = Piece.o ∧ p.row = 7 then set_piece b p Piece.oKing
  else b

/-- `CheckersBoard.apply_move`: empty the start square, put the moving piece
on the end square, empty the captured square of a capture, then promote. -/
def apply_move (b : Board) (m : Move) : Board :=
  let piece := get_piece b m.start
  let b1 := remove_piece b m.start
  let b2 := set_piece b1 m.stop piece
  let b3 :=
    match m.is_capture, m.captured_position with
    | true, some c => remove_piece b2 c
    | _, _ => b2
  promote_if_needed b3 m.stop

/-- The mutation protocol of `MoveGenerator`: the source board is deep-copied
(`clone`) and `apply_move` mutates only the copy.  The pair records the source
board as re-queriable after the call, and the freshly built result board. -/
def run_apply (b : Board) (m : Move) : Board × Board :=
  let copy := clone b
  (b, apply_move copy m)

/-- `CheckersBoard.count_pieces`: `(x count, o count)` over all 64 squares. -/
def allPositions : List Position :=
  (List.range 8).flatMap fun r =>
    (List.range 8).map fun c => Position.mk (Nat.cast r) (Nat.cast c)

/-- `CheckersBoard.count_pieces`. -/
def count_pieces (b : Board) : Nat × Nat :=
  (allPositions.countP fun p => is_player_piece b p Player.X,
   allPositions.countP fun p => is_player_piece b p Player.O)

/-- `MoveGenerator.get_piece_directions`. -/
def get_piece_directions (b : Board) (p : Position) : List Position :=
  match get_piece b p with
  | Piece.x => [⟨-1, -1⟩, ⟨-1, 1⟩]
  | Piece.o => [⟨1, -1⟩, ⟨1, 1⟩]
  | Piece.xKing => [⟨-1, -1⟩, ⟨-1, 1⟩, ⟨1, -1⟩, ⟨1, 1⟩]
  | Piece.oKing => [⟨-1, -1⟩, ⟨-1, 1⟩, ⟨1, -1⟩, ⟨1, 1⟩]
  | Piece.empty => []

/-- `MoveGenerator._check_capture`: at most one capture per direction; the new
board is a clone of the current one with the move applied. -/
def check_capture (b : Board) (p dir : Position) (pl : Player) : List (Board × Move) :=
  let enemy_pos := p.add dir
  let landing_pos := enemy_pos.add dir
  if enemy_pos.is_valid && landing_pos.is_valid &&
      is_enemy_piece b enemy_pos pl && is_empty b landing_pos then
    let m : Move := ⟨p, landing_pos, true, some enemy_pos⟩
    [((run_apply b m).2, m)]
  else []

/-- The capture moves accumulated by `MoveGenerator.generate_moves`, in the
same row-major, per-direction order as the source loop. -/
def capture_list (b : Board) (pl : Player) : List (Board × Move) :=
  (allPositions.filter fun p => is_player_piece b p pl).flatMap fun p =>
    (get_piece_directions b p).flatMap fun dir => check_capture b p dir pl

/-- The regular (plain step) moves accumulated by `generate_moves`: for a
direction, only considered when that direction yields no capture. -/
def regular_list (b : Board) (pl : Player) : List (Board × Move) :=
  (allPositions.filter fun p => is_player_piece b p pl).flatMap fun p =>
    (get_piece_directions b p).flatMap fun dir =>
      if (check_capture b p dir pl).isEmpty then
        let new_position := p.add dir
        if new_position.is_valid && is_empty b new_position then
          let m : Move := ⟨p, new_position, false, none⟩
          [((run_apply b m).2, m)]
        else []
      else []

/-- `MoveGenerator.generate_moves`: captures if any exist (forced capture),
otherwise the plain steps; the Bool is `has_captures`. -/
def generate_moves (b : Board) (pl : Player) : List (Board × Move) × Bool :=
  if (capture_list b pl).isEmpty then (regular_list b pl, false)
  else (capture_list b pl, true)

/-- `dentro` from `checkers.py`: the bounds check used before grid indexing. -/
def dentro (i j : Int) : Bool :=
  decide (0 ≤ i) && decide (i < 8) && decide (0 ≤ j) && decide (j < 8)

/-- The outcome of `CheckersGame._select_next_move` for one turn: either run
the alpha-beta search at some depth, or bypass it with a random legal move. -/
inductive TurnChoice where
  | search : Nat → TurnChoice
  | randomMove : TurnChoice
deriving DecidableEq, Repr

/-- `CheckersGame._select_next_move`, as a function of the occurrence count of
the current board hash in `position_history` and of the phase-derived depth:
count > 2 forces depth 2, count > 4 falls through to the random-move path. -/
def select_next_move_policy (count : Nat) (depth : Nat) : TurnChoice :=
  if 2 < count then
    if 4 < count then TurnChoice.randomMove else TurnChoice.search 2
  else TurnChoice.search depth

/-- `CheckersGame._choose_random_move`: `random.choice` over the generated
move list, modelled by an oracle index `k` reduced modulo the list length;
with no moves the current board and no move are returned. -/
def choose_random_move (b : Board) (pl : Player) (k : Nat) : Board × Option Move :=
  match (generate_moves b pl).1 with
  | [] => (b, none)
  | c :: rest =>
    let chosen := (c :: rest).get ⟨k % (c :: rest).length, Nat.mod_lt _ (Nat.succ_pos _)⟩
    (chosen.1, some chosen.2)

/-- The piece that ends up on the landing square of `apply_move`: the moved
piece, turned into the matching king when a man reaches its back row. -/
def promoted (pc : Piece) (p : Position) : Piece :=
  if pc = Piece.x ∧ p.row = 0 then Piece.xKing
  else if pc = Piece.o ∧ p.row = 7 then Piece.oKing
  else pc

end Checkers

namespace Checkers

example : (initialBoard ⟨0, 1⟩) = Piece.o := by decide
example : (initialBoard ⟨7, 0⟩) = Piece.x := by decide
example : (initialBoard ⟨4, 1⟩) = Piece.empty := by decide
example : count_pieces initialBoard = (12, 12) := by decide
example : ((generate_moves initialBoard Player.X).1).length = 7 := by decide
example : (generate_moves initialBoard Player.X).2 = false := by decide

/-- Reading through `set_piece` is a pointwise function update. -/
lemma get_set_piece (b : Board) (p q : Position) (pc : Piece) :
    get_piece (set_piece b p pc) q = if q = p then pc else get_piece b q := rfl

/-- `promote_if_needed` leaves every square other than its argument alone. -/
lemma get_promote_ne (b : Board) (p q : Position) (h : q ≠ p) :
    get_piece (promote_if_needed b p) q = get_piece b q := by
  unfold promote_if_needed
  split
  · simp [get_set_piece, h]
  · split
    · simp [get_set_piece, h]
    · rfl

/-- `promote_if_needed` rewrites its argument square via `promoted`. -/
lemma get_promote_self (b : Board) (p : Position) :
    get_piece (promote_if_needed b p) p = promoted (get_piece b p) p := by
  unfold promote_if_needed promoted
  by_cases h1 : get_piece b p = Piece.x ∧ p.row = 0
  · rw [if_pos h1, if_pos h1]
    simp [get_set_piece]
  · rw [if_neg h1, if_neg h1]
    by_cases h2 : get_piece b p = Piece.o ∧ p.row = 7
    · rw [if_pos h2, if_pos h2]
      simp [get_set_piece]
    · rw [if_neg h2, if_neg h2]

/-- `apply_move` leaves every square other than the start square, the landing
square and the captured square of a capture unchanged. -/
lemma get_apply_move_ne (b : Board) (m : Move) (q : Position)
    (h1 : q ≠ m.start) (h2 : q ≠ m.stop)
    (h3 : ∀ c, m.is_capture = true → m.captured_position = some c → q ≠ c) :
    get_piece (apply_move b m) q = get_piece b q := by
  rcases hc : m.is_capture with _ | _ <;> rcases hcp : m.captured_position with _ | c
  · simp only [apply_move, hc, hcp]
    rw [get_promote_ne _ _ _ h2]
    simp [remove_piece, get_set_piece, h1, h2]
  · simp only [apply_move, hc, hcp]
    rw [get_promote_ne _ _ _ h2]
    simp [remove_piece, get_set_piece, h1, h2]
  · simp only [apply_move, hc, hcp]
    rw [get_promote_ne _ _ _ h2]
    simp [remove_piece, get_set_piece, h1, h2]
  · simp only [apply_move, hc, hcp]
    rw [get_promote_ne _ _ _ h2]
    simp [remove_piece, get_set_piece, h1, h2, h3 c hc hcp]

/-- The board built by `run_apply` is the pure function of the source board
(the clone is pointwise identical to it). -/
lemma run_apply_snd (b : Board) (m : Move) : (run_apply b m).2 = apply_move b m := rfl

/-- Membership in `allPositions` is exactly in-bounds coordinates. -/
lemma mem_allPositions (p : Position) :
    p ∈ allPositions ↔ 0 ≤ p.row ∧ p.row < 8 ∧ 0 ≤ p.col ∧ p.col < 8 := by
  unfold allPositions
  constructor
  · intro h
    obtain ⟨r, hr, hpr⟩ := List.mem_flatMap.mp h
    obtain ⟨c, hc, heq⟩ := List.mem_map.mp hpr
    rw [List.mem_range] at hr hc
    subst heq
    dsimp only
    omega
  · rintro ⟨h1, h2, h3, h4⟩
    refine List.mem_flatMap.mpr ⟨p.row.toNat, List.mem_range.mpr (by omega), ?_⟩
    refine List.mem_map.mpr ⟨p.col.toNat, List.mem_range.mpr (by omega), ?_⟩
    cases p
    simp only [Position.mk.injEq]
    dsimp only at h1 h2 h3 h4
    omega

/-- Every direction the generator returns is one diagonal step. -/
lemma dir_shape (b : Board) (p dir : Position) (h : dir ∈ get_piece_directions b p) :
    (dir.row = 1 ∨ dir.row = -1) ∧ (dir.col = 1 ∨ dir.col = -1) := by
  unfold get_piece_directions at h
  rcases hp : get_piece b p <;> rw [hp] at h <;> simp_all <;>
    rcases h with h | h | h | h <;> simp_all

/-- Structure of a pair returned by `generate_moves`: it comes from some
player-owned square and some generator direction, and is either a plain step
taken when the direction admits no capture, or a capture, with the board built
by applying the move to a clone of the input; all guards of the source are
recorded. -/
lemma mem_generate_moves (b : Board) (pl : Player) (pr : Board × Move)
    (hm : pr ∈ (generate_moves b pl).1) :
    ∃ p dir, p ∈ allPositions ∧ is_player_piece b p pl = true ∧
      dir ∈ get_piece_directions b p ∧
      ((pr.2 = ⟨p, p.add dir, false, none⟩ ∧ pr.1 = apply_move b pr.2 ∧
          (p.add dir).is_valid = true ∧ is_empty b (p.add dir) = true) ∨
       (pr.2 = ⟨p, (p.add dir).add dir, true, some (p.add dir)⟩ ∧
          pr.1 = apply_move b pr.2 ∧
          (p.add dir).is_valid = true ∧ ((p.add dir).add dir).is_valid = true ∧
          is_enemy_piece b (p.add dir) pl = true ∧
          is_empty b ((p.add dir).add dir) = true)) := by
  unfold generate_moves at hm
  by_cases hcap : (capture_list b pl).isEmpty
  · rw [if_pos hcap] at hm
    unfold regular_list at hm
    simp only [List.mem_flatMap, List.mem_filter] at hm
    obtain ⟨p, ⟨hpmem, hppl⟩, dir, hdir, hpr⟩ := hm
    refine ⟨p, dir, hpmem, hppl, hdir, Or.inl ?_⟩
    by_cases h1 : (check_capture b p dir pl).isEmpty
    · rw [if_pos h1] at hpr
      by_cases h2 : (p.add dir).is_valid && is_empty b (p.add dir)
      · rw [if_pos h2] at hpr
        simp only [List.mem_singleton] at hpr
        subst hpr
        simp only [Bool.and_eq_true] at h2
        exact ⟨rfl, rfl, h2.1, h2.2⟩
      · rw [if_neg h2] at hpr
        simp at hpr
    · rw [if_neg h1] at hpr
      simp at hpr
  · rw [if_neg hcap] at hm
    unfold capture_list at hm
    simp only [List.mem_flatMap, List.mem_filter] at hm
    obtain ⟨p, ⟨hpmem, hppl⟩, dir, hdir, hpr⟩ := hm
    refine ⟨p, dir, hpmem, hppl, hdir, Or.inr ?_⟩
    unfold check_capture at hpr
    by_cases h2 : (p.add dir).is_valid && ((p.add dir).add dir).is_valid &&
        is_enemy_piece b (p.add dir) pl && is_empty b ((p.add dir).add dir)
    · rw [if_pos h2] at hpr
      simp only [List.mem_singleton] at hpr
      subst hpr
      simp only [Bool.and_eq_true] at h2
      exact ⟨rfl, rfl, h2.1.1.1, h2.1.1.2, h2.1.2, h2.2⟩
    · rw [if_neg h2] at hpr
      simp at hpr

/-- `is_valid` unfolded to arithmetic bounds. -/
lemma is_valid_iff (p : Position) :
    p.is_valid = true ↔ 0 ≤ p.row ∧ p.row < 8 ∧ 0 ≤ p.col ∧ p.col < 8 := by
  unfold Position.is_valid
  simp [Bool.and_eq_true, decide_eq_true_eq]
  tauto

/-- Positions with different coordinate-sum parity are distinct. -/
lemma ne_of_parity (a b : Position) (h0 : (a.row + a.col) % 2 = 0)
    (h1 : (b.row + b.col) % 2 = 1) : a ≠ b := by
  intro h
  subst h
  omega

/-- One diagonal step moves to a different square. -/
lemma add_dir_ne (p dir : Position) (hd : dir.row = 1 ∨ dir.row = -1) :
    p ≠ p.add dir := by
  intro h
  have := congrArg Position.row h
  unfold Position.add at this
  dsimp only at this
  omega

/-- Two diagonal steps move to a different square. -/
lemma add_dir_two_ne (p dir : Position) (hd : dir.row = 1 ∨ dir.row = -1) :
    p ≠ (p.add dir).add dir := by
  intro h
  have := congrArg Position.row h
  unfold Position.add at this
  dsimp only at this
  omega

/-- `apply_move` empties the start square of a well-formed move. -/
lemma get_apply_move_start (b : Board) (m : Move) (hse : m.start ≠ m.stop)
    (hsc : ∀ c, m.is_capture = true → m.captured_position = some c → m.start ≠ c) :
    get_piece (apply_move b m) m.start = Piece.empty := by
  rcases hc : m.is_capture with _ | _ <;> rcases hcp : m.captured_position with _ | c
  · simp only [apply_move, hc, hcp]
    rw [get_promote_ne _ _ _ hse]
    simp [remove_piece, get_set_piece, hse]
  · simp only [apply_move, hc, hcp]
    rw [get_promote_ne _ _ _ hse]
    simp [remove_piece, get_set_piece, hse]
  · simp only [apply_move, hc, hcp]
    rw [get_promote_ne _ _ _ hse]
    simp [remove_piece, get_set_piece, hse]
  · simp only [apply_move, hc, hcp]
    rw [get_promote_ne _ _ _ hse]
    simp [remove_piece, get_set_piece, hse, hsc c hc hcp]

/-- `apply_move` puts the (possibly promoted) moving piece on the landing
square, provided a capture does not capture the landing square itself. -/
lemma get_apply_move_stop (b : Board) (m : Move)
    (hcs : ∀ c, m.is_capture = true → m.captured_position = some c → c ≠ m.stop) :
    get_piece (apply_move b m) m.stop = promoted (get_piece b m.start) m.stop := by
  rcases hc : m.is_capture with _ | _ <;> rcases hcp : m.captured_position with _ | c
  · simp only [apply_move, hc, hcp]
    rw [get_promote_self]
    simp [remove_piece, get_set_piece]
  · simp only [apply_move, hc, hcp]
    rw [get_promote_self]
    simp [remove_piece, get_set_piece]
  · simp only [apply_move, hc, hcp]
    rw [get_promote_self]
    simp [remove_piece, get_set_piece]
  · simp only [apply_move, hc, hcp]
    rw [get_promote_self]
    simp [remove_piece, get_set_piece, Ne.symm (hcs c hc hcp)]

/-- `apply_move` empties the captured square of a capture, provided the
captured square is not the landing square. -/
lemma get_apply_move_captured (b : Board) (m : Move) (c : Position)
    (hcap : m.is_capture = true) (hcp : m.captured_position = some c)
    (hne : c ≠ m.stop) :
    get_piece (apply_move b m) c = Piece.empty := by
  simp only [apply_move, hcap, hcp]
  rw [get_promote_ne _ _ _ hne]
  simp [remove_piece, get_set_piece]

/-- C1: if the move generator finds at least one capture move for the player
(across any piece and direction, i.e. the accumulated capture list is
non-empty), then the returned move list consists solely of capture moves and
the `has_captures` flag is true; every plain step is discarded for that turn. -/
theorem forced_capture_only (b : Board) (pl : Player)
    (h : (capture_list b pl).isEmpty = false) :
    (generate_moves b pl).2 = true ∧
    ∀ pr ∈ (generate_moves b pl).1, pr.2.is_capture = true := by
  unfold generate_moves
  rw [if_neg (by simp [h])]
  refine ⟨rfl, ?_⟩
  intro pr hm
  unfold capture_list at hm
  simp only [List.mem_flatMap, List.mem_filter] at hm
  obtain ⟨p, hp, dir, hdir, hpr⟩ := hm
  unfold check_capture at hpr
  by_cases hg : ((p.add dir).is_valid && ((p.add dir).add dir).is_valid &&
      is_enemy_piece b (p.add dir) pl && is_empty b ((p.add dir).add dir)) = true
  · rw [if_pos hg] at hpr
    simp only [List.mem_singleton] at hpr
    subst hpr
    rfl
  · rw [if_neg hg] at hpr
    simp at hpr

/-- Board with one X man able to capture one O man: X at (5,2), O at (4,1),
landing square (3,0) empty. -/
def bCapW : Board := fun p =>
  if p = ⟨5, 2⟩ then Piece.x else if p = ⟨4, 1⟩ then Piece.o else Piece.empty

/-- Witness for C1 at a concrete board with an available capture. -/
theorem forced_capture_only_witness :
    (capture_list bCapW Player.X).isEmpty = false ∧
    ((generate_moves bCapW Player.X).2 = true ∧
      ∀ pr ∈ (generate_moves bCapW Player.X).1, pr.2.is_capture = true) :=
  ⟨by decide, forced_capture_only bCapW Player.X (by decide)⟩

/-- C2: the clone-then-apply protocol of the generator leaves every square of
the source board unchanged when re-queried, its result board is the pure
function `apply_move` of the source board and the move (determinism), and the
result depends only on the observable squares of the input board. -/
theorem apply_move_no_mutation (b bAlias : Board) (m : Move)
    (hobs : ∀ q, get_piece b q = get_piece bAlias q) :
    (∀ q, get_piece (run_apply b m).1 q = get_piece b q) ∧
    (run_apply b m).2 = apply_move b m ∧
    apply_move b m = apply_move bAlias m := by
  have hb : b = bAlias := funext hobs
  subst hb
  exact ⟨fun _ => rfl, rfl, rfl⟩

/-- Witness for C2 on the initial board and an opening step of X. -/
theorem apply_move_no_mutation_witness :
    (∀ q, get_piece (run_apply initialBoard ⟨⟨5, 0⟩, ⟨4, 1⟩, false, none⟩).1 q
        = get_piece initialBoard q) ∧
    (run_apply initialBoard ⟨⟨5, 0⟩, ⟨4, 1⟩, false, none⟩).2
        = apply_move initialBoard ⟨⟨5, 0⟩, ⟨4, 1⟩, false, none⟩ ∧
    apply_move initialBoard ⟨⟨5, 0⟩, ⟨4, 1⟩, false, none⟩
        = apply_move (clone initialBoard) ⟨⟨5, 0⟩, ⟨4, 1⟩, false, none⟩ :=
  apply_move_no_mutation initialBoard (clone initialBoard)
    ⟨⟨5, 0⟩, ⟨4, 1⟩, false, none⟩ (fun _ => rfl)

/-- C4: a move that lands an X man on row 0 yields the X king on the landing
square, a move that lands an O man on row 7 yields the O king there, and any
other landing (man elsewhere, kings anywhere) keeps the moving piece as is.
The hypothesis states the well-formedness of the move required by the data
model: a capture's captured square (the midpoint) is not the landing square. -/
theorem promotion_on_back_row (b : Board) (m : Move)
    (hc : ∀ c, m.is_capture = true → m.captured_position = some c → c ≠ m.stop) :
    ((get_piece b m.start = Piece.x ∧ m.stop.row = 0) →
        get_piece (apply_move b m) m.stop = Piece.xKing) ∧
    ((get_piece b m.start = Piece.o ∧ m.stop.row = 7) →
        get_piece (apply_move b m) m.stop = Piece.oKing) ∧
    (((get_piece b m.start = Piece.x → m.stop.row ≠ 0) ∧
      (get_piece b m.start = Piece.o → m.stop.row ≠ 7)) →
        get_piece (apply_move b m) m.stop = get_piece b m.start) := by
  have key := get_apply_move_stop b m hc
  refine ⟨?_, ?_, ?_⟩
  · intro hx
    rw [key]
    unfold promoted
    rw [if_pos hx]
  · intro ho
    rw [key]
    unfold promoted
    rw [if_neg (by rintro ⟨h1, _⟩; rw [ho.1] at h1; exact absurd h1 (by decide)),
      if_pos ho]
  · rintro ⟨hx, ho⟩
    rw [key]
    unfold promoted
    rw [if_neg (by rintro ⟨h1, h2⟩; exact hx h1 h2),
      if_neg (by rintro ⟨h1, h2⟩; exact ho h1 h2)]

/-- Board with a single X man one step from promotion. -/
def bPromoW : Board := fun p => if p = ⟨1, 2⟩ then Piece.x else Piece.empty

/-- Witness for C4: the X man stepping from (1,2) to (0,3) becomes a king. -/
theorem promotion_on_back_row_witness :
    get_piece (apply_move bPromoW ⟨⟨1, 2⟩, ⟨0, 3⟩, false, none⟩) ⟨0, 3⟩ = Piece.xKing :=
  (promotion_on_back_row bPromoW ⟨⟨1, 2⟩, ⟨0, 3⟩, false, none⟩
    (fun _ h => nomatch h)).1 ⟨by decide, rfl⟩

/-- C6: with the current position hash seen `count` times, a count above 2
forces search depth 2 for the turn, a count above 4 bypasses the search with a
random legal move instead; the random pick (`random.choice`, modelled by an
oracle index `k` taken modulo the list length) always applies a generated
legal move of the mover, and each index below the length selects exactly the
move at that index, so the draw ranges uniformly over the legal moves. -/
theorem repetition_cycle_breaking (count depth : Nat) (b : Board) (pl : Player) (k : Nat) :
    (2 < count → count ≤ 4 → select_next_move_policy count depth = TurnChoice.search 2) ∧
    (4 < count → select_next_move_policy count depth = TurnChoice.randomMove) ∧
    ((generate_moves b pl).1 ≠ [] →
      ∃ pr ∈ (generate_moves b pl).1, choose_random_move b pl k = (pr.1, some pr.2)) ∧
    (∀ pr0, ((generate_moves b pl).1).get? k = some pr0 →
      choose_random_move b pl k = (pr0.1, some pr0.2)) := by
  refine ⟨?_, ?_, ?_, ?_⟩
  · intro h2 h4
    unfold select_next_move_policy
    rw [if_pos h2, if_neg (by omega)]
  · intro h4
    unfold select_next_move_policy
    rw [if_pos (by omega), if_pos h4]
  · intro hne
    unfold choose_random_move
    rcases hl : (generate_moves b pl).1 with _ | ⟨c, rest⟩
    · exact absurd hl hne
    · exact ⟨(c :: rest).get ⟨k % (c :: rest).length, Nat.mod_lt _ (Nat.succ_pos _)⟩,
        List.get_mem _ _ _, rfl⟩
  · intro pr0 h
    unfold choose_random_move
    rcases hl : (generate_moves b pl).1 with _ | ⟨c, rest⟩
    · rw [hl] at h
      exact absurd h (by simp)
    · rw [hl] at h
      obtain ⟨hk, hget⟩ := List.get?_eq_some.mp h
      have hidx : (⟨k % (c :: rest).length, Nat.mod_lt _ (Nat.succ_pos _)⟩ :
          Fin (c :: rest).length) = ⟨k, hk⟩ := by
        apply Fin.ext
        exact Nat.mod_eq_of_lt hk
      dsimp only
      rw [hidx, hget]

/-- Witness for C6: concrete counts, and the random path on the opening
position returning a legal move of O. -/
theorem repetition_cycle_breaking_witness :
    select_next_move_policy 3 5 = TurnChoice.search 2 ∧
    select_next_move_policy 5 5 = TurnChoice.randomMove ∧
    (∃ pr ∈ (generate_moves initialBoard Player.O).1,
      choose_random_move initialBoard Player.O 0 = (pr.1, some pr.2)) := by
  have hne : (generate_moves initialBoard Player.O).1 ≠ [] := by
    have hlen : ((generate_moves initialBoard Player.O).1).length = 7 := by decide
    intro h
    rw [h] at hlen
    exact absurd hlen (by decide)
  exact ⟨(repetition_cycle_breaking 3 5 initialBoard Player.O 0).1 (by omega) (by omega),
    (repetition_cycle_breaking 5 5 initialBoard Player.O 0).2.1 (by omega),
    (repetition_cycle_breaking 5 5 initialBoard Player.O 0).2.2.1 hne⟩

/-- C8: bounds safety of move generation.  First conjunct (the crux cited
from `checkers.py` and `simpleCheckers.py`): when only the landing square of
a diagonal double step from an in-bounds square passes the `dentro` bounds
check, the intermediate adjacent square that the code reads unguarded is
still within `[0,8)` in both coordinates, and in particular never negative,
so Python indexing cannot wrap around.  Second conjunct: every move produced
by the generator has in-bounds start, landing and captured coordinates. -/
theorem no_out_of_bounds_access :
    (∀ i j di dj : Int, (di = 1 ∨ di = -1) → (dj = 1 ∨ dj = -1) →
      dentro i j = true → dentro (i + 2 * di) (j + 2 * dj) = true →
      dentro (i + di) (j + dj) = true ∧ 0 ≤ i + di ∧ 0 ≤ j + dj) ∧
    (∀ (b : Board) (pl : Player) (pr : Board × Move), pr ∈ (generate_moves b pl).1 →
      pr.2.start.is_valid = true ∧ pr.2.stop.is_valid = true ∧
      ∀ c, pr.2.captured_position = some c → c.is_valid = true) := by
  constructor
  · intro i j di dj hdi hdj h1 h2
    unfold dentro at h1 h2 ⊢
    simp only [Bool.and_eq_true, decide_eq_true_eq] at h1 h2 ⊢
    rcases hdi with rfl | rfl <;> rcases hdj with rfl | rfl <;>
      refine ⟨⟨⟨?_, ?_⟩, ?_⟩, ?_⟩ <;> omega
  · intro b pl pr hm
    obtain ⟨p, dir, hp, hppl, hdir, hcase⟩ := mem_generate_moves b pl pr hm
    have hpv : p.is_valid = true := by
      rw [is_valid_iff]
      exact (mem_allPositions p).mp hp
    rcases hcase with ⟨hmv, _, hval, _⟩ | ⟨hmv, _, hv1, hv2, _, _⟩
    · rw [hmv]
      exact ⟨hpv, hval, fun c hc => nomatch hc⟩
    · rw [hmv]
      refine ⟨hpv, hv2, fun c hc => ?_⟩
      cases hc
      exact hv1

/-- Witness for C8: the guarded double step from (2,2) towards (4,4) keeps
the intermediate square (3,3) in bounds and non-negative. -/
theorem no_out_of_bounds_access_witness :
    dentro (2 + 1) (2 + 1) = true ∧ 0 ≤ (2 : Int) + 1 ∧ 0 ≤ (2 : Int) + 1 :=
  no_out_of_bounds_access.1 2 2 1 1 (Or.inl rfl) (Or.inl rfl) (by decide) (by decide)

/-- Every light square (coordinate sum even) of the board is empty. -/
def lightSquaresEmpty (b : Board) : Prop :=
  ∀ r c : Fin 8, ((r.val : Int) + (c.val : Int)) % 2 = 0 →
    get_piece b (Position.mk (r.val : Int) (c.val : Int)) = Piece.empty

instance lightSquaresEmptyDecidable (b : Board) : Decidable (lightSquaresEmpty b) :=
  inferInstanceAs (Decidable (∀ r c : Fin 8, ((r.val : Int) + (c.val : Int)) % 2 = 0 →
    get_piece b (Position.mk (r.val : Int) (c.val : Int)) = Piece.empty))

/-- `lightSquaresEmpty` applied at an arbitrary in-bounds light position. -/
lemma lightSquaresEmpty_get (b : Board) (hb : lightSquaresEmpty b) (p : Position)
    (hv : p.is_valid = true) (hpar : (p.row + p.col) % 2 = 0) :
    get_piece b p = Piece.empty := by
  rw [is_valid_iff] at hv
  obtain ⟨h1, h2, h3, h4⟩ := hv
  have hp : Position.mk ((p.row.toNat : Nat) : Int) ((p.col.toNat : Nat) : Int) = p := by
    cases p
    simp only [Position.mk.injEq]
    dsimp only at h1 h2 h3 h4
    omega
  have := hb ⟨p.row.toNat, by omega⟩ ⟨p.col.toNat, by omega⟩ (by dsimp only; omega)
  rw [hp] at this
  exact this

/-- A square holding a player piece is non-empty. -/
lemma player_piece_ne_empty (b : Board) (p : Position) (pl : Player)
    (h : is_player_piece b p pl = true) : get_piece b p ≠ Piece.empty := by
  intro hemp
  unfold is_player_piece at h
  rcases pl <;> rw [hemp] at h <;> simp at h

/-- C7: only dark squares are ever occupied.  The initial board places pieces
only on dark squares, and every board produced by the move generator from a
board satisfying the invariant satisfies it again: moves travel between dark
squares and captures remove a dark square, so light squares stay empty. -/
theorem dark_squares_invariant :
    lightSquaresEmpty initialBoard ∧
    ∀ (b : Board) (pl : Player), lightSquaresEmpty b →
      ∀ pr ∈ (generate_moves b pl).1, lightSquaresEmpty pr.1 := by
  constructor
  · decide
  · intro b pl hb pr hm
    obtain ⟨p, dir, hp, hppl, hdir, hcase⟩ := mem_generate_moves b pl pr hm
    have hpv : p.is_valid = true := by
      rw [is_valid_iff]
      exact (mem_allPositions p).mp hp
    have hdark : (p.row + p.col) % 2 = 1 := by
      by_contra hpar
      have h0 : (p.row + p.col) % 2 = 0 := by omega
      exact player_piece_ne_empty b p pl hppl (lightSquaresEmpty_get b hb p hpv h0)
    obtain ⟨hd1, hd2⟩ := dir_shape b p dir hdir
    intro r c hpar
    have hqpar : ((Position.mk (r.val : Int) (c.val : Int)).row
        + (Position.mk (r.val : Int) (c.val : Int)).col) % 2 = 0 := hpar
    have hstep : ((p.add dir).row + (p.add dir).col) % 2 = 1 := by
      unfold Position.add
      dsimp only
      rcases hd1 with h | h <;> rcases hd2 with h' | h' <;> rw [h, h'] <;> omega
    have hstep2 : (((p.add dir).add dir).row + ((p.add dir).add dir).col) % 2 = 1 := by
      unfold Position.add
      dsimp only
      rcases hd1 with h | h <;> rcases hd2 with h' | h' <;> rw [h, h'] <;> omega
    rcases hcase with ⟨hmv, hbd, _, _⟩ | ⟨hmv, hbd, _, _, _, _⟩
    · rw [hbd, hmv]
      rw [get_apply_move_ne]
      · exact hb r c hpar
      · exact ne_of_parity _ _ hqpar hdark
      · exact ne_of_parity _ _ hqpar hstep
      · intro c' _ hsome
        exact nomatch hsome
    · rw [hbd, hmv]
      rw [get_apply_move_ne]
      · exact hb r c hpar
      · exact ne_of_parity _ _ hqpar hdark
      · exact ne_of_parity _ _ hqpar hstep2
      · intro c' _ hsome
        cases hsome
        exact ne_of_parity _ _ hqpar hstep

/-- Witness for C7: a generated successor of the initial board still has all
light squares empty. -/
theorem dark_squares_invariant_witness :
    lightSquaresEmpty (((generate_moves initialBoard Player.X).1).get ⟨0, by decide⟩).1 :=
  dark_squares_invariant.2 initialBoard Player.X (by decide) _ (List.get_mem _ _ _)

/-- C10: a board produced by the generator differs from the source board only
at the move's start square (now empty), its landing square (now the moved,
possibly promoted, piece) and, for a capture, the captured square (now
empty); every other square holds exactly the same piece as before. -/
theorem apply_move_frame (b : Board) (pl : Player) (pr : Board × Move)
    (hm : pr ∈ (generate_moves b pl).1) :
    pr.1 = apply_move b pr.2 ∧
    get_piece pr.1 pr.2.start = Piece.empty ∧
    get_piece pr.1 pr.2.stop = promoted (get_piece b pr.2.start) pr.2.stop ∧
    (∀ c, pr.2.captured_position = some c → get_piece pr.1 c = Piece.empty) ∧
    (∀ q, q ≠ pr.2.start → q ≠ pr.2.stop →
      (∀ c, pr.2.captured_position = some c → q ≠ c) →
      get_piece pr.1 q = get_piece b q) := by
  obtain ⟨p, dir, hp, hppl, hdir, hcase⟩ := mem_generate_moves b pl pr hm
  obtain ⟨hd1, hd2⟩ := dir_shape b p dir hdir
  have hse1 : p ≠ p.add dir := add_dir_ne p dir hd1
  have hse2 : p ≠ (p.add dir).add dir := add_dir_two_ne p dir hd1
  have hmid : p.add dir ≠ (p.add dir).add dir := add_dir_ne (p.add dir) dir hd1
  rcases hcase with ⟨hmv, hbd, _, _⟩ | ⟨hmv, hbd, _, _, _, _⟩
  · rw [hbd, hmv]
    refine ⟨rfl, ?_, ?_, ?_, ?_⟩
    · exact get_apply_move_start b _ hse1 (fun c _ hsome => nomatch hsome)
    · exact get_apply_move_stop b _ (fun c _ hsome => nomatch hsome)
    · intro c hsome
      exact nomatch hsome
    · intro q hq1 hq2 _
      exact get_apply_move_ne b _ q hq1 hq2 (fun c _ hsome => nomatch hsome)
  · rw [hbd, hmv]
    refine ⟨rfl, ?_, ?_, ?_, ?_⟩
    · refine get_apply_move_start b _ hse2 (fun c _ hsome => ?_)
      cases hsome
      exact hse1
    · refine get_apply_move_stop b _ (fun c _ hsome => ?_)
      cases hsome
      exact hmid
    · intro c hsome
      cases hsome
      exact get_apply_move_captured b _ _ rfl rfl hmid
    · intro q hq1 hq2 hq3
      refine get_apply_move_ne b _ q hq1 hq2 (fun c _ hsome => hq3 c hsome)

/-- Witness for C10: the first generated opening move of X leaves the far
corner square (7,0) untouched and empties its start square. -/
theorem apply_move_frame_witness :
    get_piece (((generate_moves initialBoard Player.X).1).get ⟨0, by decide⟩).1 ⟨7, 0⟩
      = get_piece initialBoard ⟨7, 0⟩ := by
  have h := apply_move_frame initialBoard Player.X
    (((generate_moves initialBoard Player.X).1).get ⟨0, by decide⟩)
    (List.get_mem _ 0 (by decide))
  refine h.2.2.2.2 ⟨7, 0⟩ ?_ ?_ ?_
  · intro heq
    have : (((generate_moves initialBoard Player.X).1).get
        ⟨0, by decide⟩).2.start = ⟨7, 0⟩ := heq.symm
    exact absurd this (by decide)
  · intro heq
    have : (((generate_moves initialBoard Player.X).1).get
        ⟨0, by decide⟩).2.stop = ⟨7, 0⟩ := heq.symm
    exact absurd this (by decide)
  · intro c hsome
    have hnone : (((generate_moves initialBoard Player.X).1).get
        ⟨0, by decide⟩).2.captured_position = none := by decide
    rw [hnone] at hsome
    exact nomatch hsome

/-- `GameEvaluator.PIECE_WEIGHT`. -/
noncomputable def PIECE_WEIGHT : ℝ := 10

/-- `GameEvaluator.KING_WEIGHT`. -/
noncomputable def KING_WEIGHT : ℝ := 25

/-- Advancement weight by phase, from `GameEvaluator.evaluate`. -/
noncomputable def advance_weight (phase : GamePhase) : ℝ :=
  if phase = GamePhase.OPENING then 0.3 else 0.1

/-- Center-control weight by phase, from `GameEvaluator.evaluate`. -/
noncomputable def center_weight (phase : GamePhase) : ℝ :=
  if phase = GamePhase.MIDDLE then 0.5 else 0.2

/-- Proximity weight by phase, from `GameEvaluator.evaluate`. -/
noncomputable def proximity_weight (phase : GamePhase) : ℝ :=
  if phase = GamePhase.OPENING then 0
  else if phase = GamePhase.ENDGAME then 1 else 0.3

/-- `GameEvaluator._distance_to_center`: Euclidean distance to (3.5, 3.5). -/
noncomputable def distance_to_center (p : Position) : ℝ :=
  Real.sqrt (((p.row : ℝ) - 3.5) ^ 2 + ((p.col : ℝ) - 3.5) ^ 2)

/-- The enemy piece kinds used by `_distance_to_nearest_enemy` (an empty
square falls into the else branch of the source, like an O piece would). -/
def enemy_pieces_of (pc : Piece) : List Piece :=
  if pc = Piece.x ∨ pc = Piece.xKing then [Piece.o, Piece.oKing]
  else [Piece.x, Piece.xKing]

/-- The squares holding an enemy of the piece at `p`, scanned row-major. -/
def enemySquares (b : Board) (p : Position) : List Position :=
  allPositions.filter fun q => decide (get_piece b q ∈ enemy_pieces_of (get_piece b p))

/-- `GameEvaluator._distance_to_nearest_enemy`: minimal Manhattan distance to
an enemy piece, or 8 when no enemy exists on the board. -/
def distance_to_nearest_enemy (b : Board) (p : Position) : Int :=
  match ((enemySquares b p).map fun q => p.manhattan_distance q).min? with
  | some d => d
  | none => 8

/-- The contribution of one square to `GameEvaluator.evaluate`, exactly the
per-square accumulation of the source loop: men get base, advancement,
center and (Endgame only) proximity terms, kings get base and center only,
with the sign flipped for O. -/
noncomputable def square_score (b : Board) (phase : GamePhase) (p : Position) : ℝ :=
  match get_piece b p with
  | Piece.x =>
      PIECE_WEIGHT + advance_weight phase * (7 - (p.row : ℝ))
      + center_weight phase * (4 - distance_to_center p)
      + (if phase = GamePhase.ENDGAME then
          proximity_weight phase * (8 - (distance_to_nearest_enemy b p : ℝ)) else 0)
  | Piece.xKing => KING_WEIGHT + center_weight phase * (4 - distance_to_center p)
  | Piece.o =>
      -(PIECE_WEIGHT + advance_weight phase * (p.row : ℝ))
      - center_weight phase * (4 - distance_to_center p)
      - (if phase = GamePhase.ENDGAME then
          proximity_weight phase * (8 - (distance_to_nearest_enemy b p : ℝ)) else 0)
  | Piece.oKing => -KING_WEIGHT - center_weight phase * (4 - distance_to_center p)
  | Piece.empty => 0

/-- The per-square accumulation without the Endgame proximity term. -/
noncomputable def square_score_base (b : Board) (phase : GamePhase) (p : Position) : ℝ :=
  match get_piece b p with
  | Piece.x =>
      PIECE_WEIGHT + advance_weight phase * (7 - (p.row : ℝ))
      + center_weight phase * (4 - distance_to_center p)
  | Piece.xKing => KING_WEIGHT + center_weight phase * (4 - distance_to_center p)
  | Piece.o =>
      -(PIECE_WEIGHT + advance_weight phase * (p.row : ℝ))
      - center_weight phase * (4 - distance_to_center p)
  | Piece.oKing => -KING_WEIGHT - center_weight phase * (4 - distance_to_center p)
  | Piece.empty => 0

/-- The Endgame proximity bonus the specification sentence attributes to
every occupied square ("for the owning side, accumulate (sign flips for O)
... proximityWeight * (8 - manhattanDistanceToNearestEnemy)"), written from
the spec's words for comparison against the source's `square_score`. -/
noncomputable def proximity_bonus_claimed (b : Board) (p : Position) : ℝ :=
  match get_piece b p with
  | Piece.x => proximity_weight GamePhase.ENDGAME * (8 - (distance_to_nearest_enemy b p : ℝ))
  | Piece.xKing => proximity_weight GamePhase.ENDGAME * (8 - (distance_to_nearest_enemy b p : ℝ))
  | Piece.o => -(proximity_weight GamePhase.ENDGAME * (8 - (distance_to_nearest_enemy b p : ℝ)))
  | Piece.oKing => -(proximity_weight GamePhase.ENDGAME * (8 - (distance_to_nearest_enemy b p : ℝ)))
  | Piece.empty => 0

/-- `GameEvaluator.evaluate`: the sum of the per-square scores plus, in
Endgame only, the random jitter draw (passed explicitly as `jitter`). -/
noncomputable def evaluate (b : Board) (phase : GamePhase) (jitter : ℝ) : ℝ :=
  (allPositions.map (square_score b phase)).sum
  + (if phase = GamePhase.ENDGAME then jitter else 0)

/-- `GameEvaluator.determine_game_phase`. -/
def determine_game_phase (b : Board) : GamePhase :=
  if 16 < (count_pieces b).1 + (count_pieces b).2 then GamePhase.OPENING
  else if 8 < (count_pieces b).1 + (count_pieces b).2 then GamePhase.MIDDLE
  else GamePhase.ENDGAME

/-- Endgame board with an X king at (4,1) and an O man at (4,3), Manhattan
distance 2 apart. -/
def bKingW : Board := fun p =>
  if p = ⟨4, 1⟩ then Piece.xKing else if p = ⟨4, 3⟩ then Piece.o else Piece.empty

/-- Counterexample to C5 as stated: the occupied square (4,1) holds a king,
and its Endgame score does not include the claimed proximity bonus — kings
receive no proximity term in the source. -/
theorem endgame_proximity_counterexample :
    get_piece bKingW ⟨4, 1⟩ ≠ Piece.empty ∧
    square_score bKingW GamePhase.ENDGAME ⟨4, 1⟩
      ≠ square_score_base bKingW GamePhase.ENDGAME ⟨4, 1⟩
        + proximity_bonus_claimed bKingW ⟨4, 1⟩ := by
  constructor
  · decide
  · have hpc : get_piece bKingW ⟨4, 1⟩ = Piece.xKing := by decide
    have hd : distance_to_nearest_enemy bKingW ⟨4, 1⟩ = 2 := by decide
    have h1 : proximity_weight GamePhase.ENDGAME = 1 := by simp [proximity_weight]
    unfold square_score square_score_base proximity_bonus_claimed
    rw [hpc, hd]
    dsimp only
    rw [h1]
    intro heq
    push_cast at heq
    linarith

/-- C5 (amended: the proximity bonus applies to man-occupied squares only;
kings receive none): in Endgame, a square holding a man accumulates exactly
`proximityWeight * (8 - manhattanDistanceToNearestEnemy)` on top of its
base, advancement and center terms, with the sign flipped for O and
`proximityWeight Endgame = 1`; a king's square carries no proximity term;
and with no enemy on the board the nearest-enemy distance defaults to 8,
making the bonus contribute exactly zero. -/
theorem endgame_proximity_men (b : Board) (p : Position) :
    proximity_weight GamePhase.ENDGAME = 1 ∧
    ((get_piece b p = Piece.x ∨ get_piece b p = Piece.o) →
      square_score b GamePhase.ENDGAME p
        = square_score_base b GamePhase.ENDGAME p + proximity_bonus_claimed b p) ∧
    ((get_piece b p = Piece.xKing ∨ get_piece b p = Piece.oKing) →
      square_score b GamePhase.ENDGAME p = square_score_base b GamePhase.ENDGAME p) ∧
    (enemySquares b p = [] →
      distance_to_nearest_enemy b p = 8 ∧ proximity_bonus_claimed b p = 0) := by
  refine ⟨by simp [proximity_weight], ?_, ?_, ?_⟩
  · rintro (hpc | hpc)
    · unfold square_score square_score_base proximity_bonus_claimed
      rw [hpc]
      dsimp only
      rw [if_pos rfl]
    · unfold square_score square_score_base proximity_bonus_claimed
      rw [hpc]
      dsimp only
      rw [if_pos rfl]
      ring
  · rintro (hpc | hpc) <;>
      · unfold square_score square_score_base
        rw [hpc]
  · intro hne
    have hd : distance_to_nearest_enemy b p = 8 := by
      unfold distance_to_nearest_enemy
      rw [hne]
      rfl
    refine ⟨hd, ?_⟩
    unfold proximity_bonus_claimed
    rcases hpc : get_piece b p <;> simp [hd]

/-- Witness for C5 (amended) on a concrete Endgame board: the O man at (4,3)
facing the X king at (4,1). -/
theorem endgame_proximity_men_witness :
    square_score bKingW GamePhase.ENDGAME ⟨4, 3⟩
      = square_score_base bKingW GamePhase.ENDGAME ⟨4, 3⟩
        + proximity_bonus_claimed bKingW ⟨4, 3⟩ :=
  (endgame_proximity_men bKingW ⟨4, 3⟩).2.1 (Or.inr (by decide))

/-- `AIPlayer._is_game_over`: some player has no generated moves. -/
def isGameOverB (b : Board) : Bool :=
  ((generate_moves b Player.X).1).isEmpty || ((generate_moves b Player.O).1).isEmpty

mutual

/-- `AIPlayer._alpha_beta`.  Scores live in `EReal`: the initial bounds are
the Python infinities, evaluations are finite reals.  Returns (score, best
board, best move). -/
noncomputable def alphaBeta (eval : Board → ℝ) :
    Board → Nat → EReal → EReal → Bool → EReal × Option Board × Option Move
  | b, 0, _, _, _ => ((eval b : EReal), some b, none)
  | b, depth + 1, a, be, maximizing =>
    if isGameOverB b then ((eval b : EReal), some b, none)
    else
      let moves := (generate_moves b (if maximizing then Player.O else Player.X)).1
      if moves.isEmpty then ((eval b : EReal), some b, none)
      else if maximizing then loopMax eval moves depth a be ⊥ none none
      else loopMin eval moves depth a be ⊤ none none
termination_by b depth a be maximizing => (depth, 0, 0)

/-- The maximizing loop of `_alpha_beta`: carries alpha, the best score so
far and the best pair, updates on strict improvement and breaks as soon as
`beta <= alpha`. -/
noncomputable def loopMax (eval : Board → ℝ) :
    List (Board × Move) → Nat → EReal → EReal → EReal → Option Board → Option Move →
      EReal × Option Board × Option Move
  | [], _, _, _, best, bb, bm => (best, bb, bm)
  | pr :: rest, d, a, be, best, bb, bm =>
    let s := (alphaBeta eval pr.1 d a be false).1
    let best2 := if best < s then s else best
    let bb2 := if best < s then some pr.1 else bb
    let bm2 := if best < s then some pr.2 else bm
    let a2 := max a s
    if be ≤ a2 then (best2, bb2, bm2)
    else loopMax eval rest d a2 be best2 bb2 bm2
termination_by l d a be best bb bm => (d, 1, l.length)

/-- The minimizing loop of `_alpha_beta`, dual to `loopMax`. -/
noncomputable def loopMin (eval : Board → ℝ) :
    List (Board × Move) → Nat → EReal → EReal → EReal → Option Board → Option Move →
      EReal × Option Board × Option Move
  | [], _, _, _, best, bb, bm => (best, bb, bm)
  | pr :: rest, d, a, be, best, bb, bm =>
    let s := (alphaBeta eval pr.1 d a be true).1
    let best2 := if s < best then s else best
    let bb2 := if s < best then some pr.1 else bb
    let bm2 := if s < best then some pr.2 else bm
    let be2 := min be s
    if be2 ≤ a then (best2, bb2, bm2)
    else loopMin eval rest d a be2 best2 bb2 bm2
termination_by l d a be best bb bm => (d, 1, l.length)

end

mutual

/-- Full minimax at the same depth, with no pruning: the comparison target
of the alpha-beta search, following the spec's description of plain minimax
over the same move generator and evaluation. -/
noncomputable def minimax (eval : Board → ℝ) : Board → Nat → Bool → EReal
  | b, 0, _ => (eval b : EReal)
  | b, depth + 1, maximizing =>
    if isGameOverB b then (eval b : EReal)
    else
      let moves := (generate_moves b (if maximizing then Player.O else Player.X)).1
      if moves.isEmpty then (eval b : EReal)
      else if maximizing then mmFoldMax eval moves depth ⊥
      else mmFoldMin eval moves depth ⊤
termination_by b depth maximizing => (depth, 0, 0)

/-- Maximum of the children's minimax values, folded left like the loop. -/
noncomputable def mmFoldMax (eval : Board → ℝ) : List (Board × Move) → Nat → EReal → EReal
  | [], _, acc => acc
  | pr :: rest, d, acc => mmFoldMax eval rest d (max acc (minimax eval pr.1 d false))
termination_by l d acc => (d, 1, l.length)

/-- Minimum of the children's minimax values, folded left like the loop. -/
noncomputable def mmFoldMin (eval : Board → ℝ) : List (Board × Move) → Nat → EReal → EReal
  | [], _, acc => acc
  | pr :: rest, d, acc => mmFoldMin eval rest d (min acc (minimax eval pr.1 d true))
termination_by l d acc => (d, 1, l.length)

end

/-- The strict-improvement update of the maximizing loop is a `max`. -/
lemma ite_lt_max (x y : EReal) : (if x < y then y else x) = max x y := by
  rcases lt_or_le x y with h | h
  · rw [if_pos h, max_eq_right h.le]
  · rw [if_neg (not_lt.mpr h), max_eq_left h]

/-- The strict-improvement update of the minimizing loop is a `min`. -/
lemma ite_lt_min (x y : EReal) : (if y < x then y else x) = min x y := by
  rcases lt_or_le y x with h | h
  · rw [if_pos h, min_eq_right h.le]
  · rw [if_neg (not_lt.mpr h), min_eq_left h]

/-- Unfolding equation of the max-fold on nil. -/
lemma mmFoldMax_nil (eval : Board → ℝ) (d : Nat) (acc : EReal) :
    mmFoldMax eval [] d acc = acc := by
  simp [mmFoldMax]

/-- Unfolding equation of the max-fold on cons. -/
lemma mmFoldMax_cons_eq (eval : Board → ℝ) (pr : Board × Move)
    (rest : List (Board × Move)) (d : Nat) (acc : EReal) :
    mmFoldMax eval (pr :: rest) d acc
      = mmFoldMax eval rest d (max acc (minimax eval pr.1 d false)) := by
  simp [mmFoldMax]

/-- Unfolding equation of the min-fold on nil. -/
lemma mmFoldMin_nil (eval : Board → ℝ) (d : Nat) (acc : EReal) :
    mmFoldMin eval [] d acc = acc := by
  simp [mmFoldMin]

/-- Unfolding equation of the min-fold on cons. -/
lemma mmFoldMin_cons_eq (eval : Board → ℝ) (pr : Board × Move)
    (rest : List (Board × Move)) (d : Nat) (acc : EReal) :
    mmFoldMin eval (pr :: rest) d acc
      = mmFoldMin eval rest d (min acc (minimax eval pr.1 d true)) := by
  simp [mmFoldMin]

/-- The max-fold dominates its accumulator. -/
lemma mmFoldMax_acc_le (eval : Board → ℝ) (l : List (Board × Move)) (d : Nat) :
    ∀ acc : EReal, acc ≤ mmFoldMax eval l d acc := by
  induction l with
  | nil => intro acc; rw [mmFoldMax_nil]
  | cons pr rest ih =>
    intro acc
    rw [mmFoldMax_cons_eq]
    exact le_trans (le_max_left _ _) (ih _)

/-- The max-fold dominates each member's minimax value. -/
lemma le_mmFoldMax_of_mem (eval : Board → ℝ) (l : List (Board × Move)) (d : Nat) :
    ∀ (acc : EReal) (pr : Board × Move), pr ∈ l →
      minimax eval pr.1 d false ≤ mmFoldMax eval l d acc := by
  induction l with
  | nil => intro acc pr h; simp at h
  | cons q rest ih =>
    intro acc pr h
    rw [mmFoldMax_cons_eq]
    rcases List.mem_cons.mp h with rfl | h2
    · exact le_trans (le_max_right _ _) (mmFoldMax_acc_le _ _ _ _)
    · exact ih _ _ h2

/-- Upper bounds of the max-fold. -/
lemma mmFoldMax_le_iff (eval : Board → ℝ) (l : List (Board × Move)) (d : Nat) :
    ∀ acc x : EReal,
      (mmFoldMax eval l d acc ≤ x ↔
        acc ≤ x ∧ ∀ pr ∈ l, minimax eval pr.1 d false ≤ x) := by
  induction l with
  | nil => intro acc x; simp [mmFoldMax_nil]
  | cons pr rest ih =>
    intro acc x
    rw [mmFoldMax_cons_eq, ih]
    simp only [max_le_iff, List.mem_cons]
    constructor
    · rintro ⟨⟨h1, h2⟩, h3⟩
      refine ⟨h1, fun q hq => ?_⟩
      rcases hq with rfl | hq
      · exact h2
      · exact h3 q hq
    · rintro ⟨h1, h2⟩
      exact ⟨⟨h1, h2 pr (Or.inl rfl)⟩, fun q hq => h2 q (Or.inr hq)⟩

/-- The max-fold is the accumulator or one of the members' values. -/
lemma mmFoldMax_cases (eval : Board → ℝ) (l : List (Board × Move)) (d : Nat) :
    ∀ acc : EReal,
      mmFoldMax eval l d acc = acc ∨
        ∃ pr ∈ l, mmFoldMax eval l d acc = minimax eval pr.1 d false := by
  induction l with
  | nil => intro acc; exact Or.inl (mmFoldMax_nil _ _ _)
  | cons pr rest ih =>
    intro acc
    rw [mmFoldMax_cons_eq]
    rcases ih (max acc (minimax eval pr.1 d false)) with h | hh
    · rcases max_choice acc (minimax eval pr.1 d false) with hm | hm
      · exact Or.inl (h.trans hm)
      · exact Or.inr ⟨pr, List.mem_cons_self _ _, h.trans hm⟩
    · obtain ⟨q, hq, h⟩ := hh
      exact Or.inr ⟨q, List.mem_cons_of_mem _ hq, h⟩

/-- The min-fold is below its accumulator. -/
lemma mmFoldMin_le_acc (eval : Board → ℝ) (l : List (Board × Move)) (d : Nat) :
    ∀ acc : EReal, mmFoldMin eval l d acc ≤ acc := by
  induction l with
  | nil => intro acc; rw [mmFoldMin_nil]
  | cons pr rest ih =>
    intro acc
    rw [mmFoldMin_cons_eq]
    exact le_trans (ih _) (min_le_left _ _)

/-- The min-fold is below each member's minimax value. -/
lemma mmFoldMin_le_of_mem (eval : Board → ℝ) (l : List (Board × Move)) (d : Nat) :
    ∀ (acc : EReal) (pr : Board × Move), pr ∈ l →
      mmFoldMin eval l d acc ≤ minimax eval pr.1 d true := by
  induction l with
  | nil => intro acc pr h; simp at h
  | cons q rest ih =>
    intro acc pr h
    rw [mmFoldMin_cons_eq]
    rcases List.mem_cons.mp h with rfl | h2
    · exact le_trans (mmFoldMin_le_acc _ _ _ _) (min_le_right _ _)
    · exact ih _ _ h2

/-- Lower bounds of the min-fold. -/
lemma le_mmFoldMin_iff (eval : Board → ℝ) (l : List (Board × Move)) (d : Nat) :
    ∀ acc x : EReal,
      (x ≤ mmFoldMin eval l d acc ↔
        x ≤ acc ∧ ∀ pr ∈ l, x ≤ minimax eval pr.1 d true) := by
  induction l with
  | nil => intro acc x; simp [mmFoldMin_nil]
  | cons pr rest ih =>
    intro acc x
    rw [mmFoldMin_cons_eq, ih]
    simp only [le_min_iff, List.mem_cons]
    constructor
    · rintro ⟨⟨h1, h2⟩, h3⟩
      refine ⟨h1, fun q hq => ?_⟩
      rcases hq with rfl | hq
      · exact h2
      · exact h3 q hq
    · rintro ⟨h1, h2⟩
      exact ⟨⟨h1, h2 pr (Or.inl rfl)⟩, fun q hq => h2 q (Or.inr hq)⟩

/-- The min-fold is the accumulator or one of the members' values. -/
lemma mmFoldMin_cases (eval : Board → ℝ) (l : List (Board × Move)) (d : Nat) :
    ∀ acc : EReal,
      mmFoldMin eval l d acc = acc ∨
        ∃ pr ∈ l, mmFoldMin eval l d acc = minimax eval pr.1 d true := by
  induction l with
  | nil => intro acc; exact Or.inl (mmFoldMin_nil _ _ _)
  | cons pr rest ih =>
    intro acc
    rw [mmFoldMin_cons_eq]
    rcases ih (min acc (minimax eval pr.1 d true)) with h | hh
    · rcases min_choice acc (minimax eval pr.1 d true) with hm | hm
      · exact Or.inl (h.trans hm)
      · exact Or.inr ⟨pr, List.mem_cons_self _ _, h.trans hm⟩
    · obtain ⟨q, hq, h⟩ := hh
      exact Or.inr ⟨q, List.mem_cons_of_mem _ hq, h⟩

/-- Unfolding equation of the maximizing loop on nil. -/
lemma loopMax_nil (eval : Board → ℝ) (d : Nat) (a be best : EReal)
    (bb : Option Board) (bm : Option Move) :
    loopMax eval [] d a be best bb bm = (best, bb, bm) := by
  simp [loopMax]

/-- Unfolding equation of the maximizing loop on cons, with the updates
normalised to `max`. -/
lemma loopMax_cons_eq (eval : Board → ℝ) (pr : Board × Move)
    (rest : List (Board × Move)) (d : Nat) (a be best : EReal)
    (bb : Option Board) (bm : Option Move) :
    loopMax eval (pr :: rest) d a be best bb bm =
      if be ≤ max a (alphaBeta eval pr.1 d a be false).1 then
        (max best (alphaBeta eval pr.1 d a be false).1,
         if best < (alphaBeta eval pr.1 d a be false).1 then some pr.1 else bb,
         if best < (alphaBeta eval pr.1 d a be false).1 then some pr.2 else bm)
      else
        loopMax eval rest d (max a (alphaBeta eval pr.1 d a be false).1) be
          (max best (alphaBeta eval pr.1 d a be false).1)
          (if best < (alphaBeta eval pr.1 d a be false).1 then some pr.1 else bb)
          (if best < (alphaBeta eval pr.1 d a be false).1 then some pr.2 else bm) := by
  simp only [loopMax, ite_lt_max]

/-- Unfolding equation of the minimizing loop on nil. -/
lemma loopMin_nil (eval : Board → ℝ) (d : Nat) (a be best : EReal)
    (bb : Option Board) (bm : Option Move) :
    loopMin eval [] d a be best bb bm = (best, bb, bm) := by
  simp [loopMin]

/-- Unfolding equation of the minimizing loop on cons, with the updates
normalised to `min`. -/
lemma loopMin_cons_eq (eval : Board → ℝ) (pr : Board × Move)
    (rest : List (Board × Move)) (d : Nat) (a be best : EReal)
    (bb : Option Board) (bm : Option Move) :
    loopMin eval (pr :: rest) d a be best bb bm =
      if min be (alphaBeta eval pr.1 d a be true).1 ≤ a then
        (min best (alphaBeta eval pr.1 d a be true).1,
         if (alphaBeta eval pr.1 d a be true).1 < best then some pr.1 else bb,
         if (alphaBeta eval pr.1 d a be true).1 < best then some pr.2 else bm)
      else
        loopMin eval rest d a (min be (alphaBeta eval pr.1 d a be true).1)
          (min best (alphaBeta eval pr.1 d a be true).1)
          (if (alphaBeta eval pr.1 d a be true).1 < best then some pr.1 else bb)
          (if (alphaBeta eval pr.1 d a be true).1 < best then some pr.2 else bm) := by
  simp only [loopMin, ite_lt_min]

/-- The maximizing loop's score only grows from its running best. -/
lemma loopMax_fst_ge (eval : Board → ℝ) (l : List (Board × Move)) (d : Nat)
    (be : EReal) :
    ∀ (a best : EReal) (bb : Option Board) (bm : Option Move),
      best ≤ (loopMax eval l d a be best bb bm).1 := by
  induction l with
  | nil =>
    intro a best bb bm
    rw [loopMax_nil]
  | cons pr rest ih =>
    intro a best bb bm
    rw [loopMax_cons_eq]
    split
    · exact le_max_left _ _
    · exact le_trans (le_max_left _ _) (ih _ _ _ _)

/-- The minimizing loop's score only shrinks from its running best. -/
lemma loopMin_fst_le (eval : Board → ℝ) (l : List (Board × Move)) (d : Nat)
    (a : EReal) :
    ∀ (be best : EReal) (bb : Option Board) (bm : Option Move),
      (loopMin eval l d a be best bb bm).1 ≤ best := by
  induction l with
  | nil =>
    intro be best bb bm
    rw [loopMin_nil]
  | cons pr rest ih =>
    intro be best bb bm
    rw [loopMin_cons_eq]
    split
    · exact min_le_left _ _
    · exact le_trans (ih _ _ _ _) (min_le_left _ _)

/-- The fail-soft alpha-beta relation between a returned score `s` and the
exact minimax value `v` over the window `(a, be)`: a score inside the window
is exact, a score at or below alpha is an upper bound failure (`v ≤ s`), a
score at or above beta is a lower bound failure (`s ≤ v`). -/
def KMrel (s v a be : EReal) : Prop :=
  (s ≤ a → v ≤ s) ∧ (a < s → s < be → v = s) ∧ (be ≤ s → s ≤ v)

/-- Fail-soft correctness of the maximizing loop: assuming every child call
satisfies the alpha-beta relation at any alpha below beta, the loop's score
satisfies it against the max-fold of the children's minimax values. -/
lemma loopMax_KM (eval : Board → ℝ) (d : Nat) (be : EReal)
    (hIH : ∀ (nb : Board) (a2 : EReal), a2 < be →
      KMrel ((alphaBeta eval nb d a2 be false).1) (minimax eval nb d false) a2 be) :
    ∀ (l : List (Board × Move)) (a best : EReal) (bb : Option Board)
      (bm : Option Move), best ≤ a → a < be →
      KMrel ((loopMax eval l d a be best bb bm).1) (mmFoldMax eval l d best) a be := by
  intro l
  induction l with
  | nil =>
    intro a best bb bm hba hab
    rw [loopMax_nil, mmFoldMax_nil]
    exact ⟨fun _ => le_refl _, fun _ _ => rfl, fun _ => le_refl _⟩
  | cons pr rest ih =>
    intro a best bb bm hba hab
    rw [loopMax_cons_eq, mmFoldMax_cons_eq]
    obtain ⟨hc1, hc2, hc3⟩ := hIH pr.1 a hab
    set s := (alphaBeta eval pr.1 d a be false).1 with hs_def
    set V := minimax eval pr.1 d false with hV_def
    by_cases hprune : be ≤ max a s
    · rw [if_pos hprune]
      have hbs : be ≤ s := by
        rcases max_choice a s with hm | hm
        · rw [hm] at hprune
          exact absurd hab (not_lt.mpr hprune)
        · rw [hm] at hprune
          exact hprune
      refine ⟨?_, ?_, ?_⟩
      · intro h
        exact absurd (le_trans (le_max_right best s) h)
          (not_le.mpr (lt_of_lt_of_le hab hbs))
      · intro _ h2
        exact absurd (lt_of_le_of_lt (le_trans hbs (le_max_right best s)) h2)
          (lt_irrefl be)
      · intro _
        have hbest_le : best ≤ s := le_trans hba (le_trans hab.le hbs)
        rw [max_eq_right hbest_le]
        exact le_trans (hc3 hbs)
          (le_trans (le_max_right best V) (mmFoldMax_acc_le eval rest d _))
    · rw [if_neg hprune]
      push_neg at hprune
      have hb2 : max best s ≤ max a s := max_le_max hba (le_refl s)
      obtain ⟨ih1, ih2, ih3⟩ := ih (max a s) (max best s)
        (if best < s then some pr.1 else bb) (if best < s then some pr.2 else bm)
        hb2 hprune
      set t := (loopMax eval rest d (max a s) be (max best s)
        (if best < s then some pr.1 else bb)
        (if best < s then some pr.2 else bm)).1 with ht_def
      have htge : max best s ≤ t := loopMax_fst_ge eval rest d be _ _ _ _
      have hsle : s ≤ t := le_trans (le_max_right best s) htge
      have hbestle : best ≤ t := le_trans (le_max_left best s) htge
      refine ⟨?_, ?_, ?_⟩
      · intro h
        have hVs : V ≤ s := hc1 (le_trans hsle h)
        have hW' : mmFoldMax eval rest d (max best s) ≤ t :=
          ih1 (le_trans h (le_max_left a s))
        rw [mmFoldMax_le_iff]
        exact ⟨max_le hbestle (le_trans hVs hsle),
          ((mmFoldMax_le_iff eval rest d (max best s) t).mp hW').2⟩
      · intro h1 h2
        by_cases hts : t ≤ max a s
        · have hst : s = t := by
            rcases max_choice a s with hm | hm
            · rw [hm] at hts
              exact absurd h1 (not_lt.mpr hts)
            · rw [hm] at hts
              exact le_antisymm hsle hts
          have hVs : V = s := by
            refine hc2 ?_ ?_
            · rw [hst]; exact h1
            · rw [hst]; exact h2
          rw [hVs]
          refine le_antisymm (ih1 hts) ?_
          calc t = s := hst.symm
          _ ≤ max best s := le_max_right _ _
          _ ≤ _ := mmFoldMax_acc_le _ _ _ _
        · push_neg at hts
          have hW' : mmFoldMax eval rest d (max best s) = t := ih2 hts h2
          have hs_lt : s < t := lt_of_le_of_lt (le_max_right a s) hts
          have hVlt : V ≤ s := by
            rcases le_or_lt s a with hsa | has
            · exact hc1 hsa
            · exact le_of_eq (hc2 has (lt_trans hs_lt h2))
          refine le_antisymm ?_ ?_
          · rw [mmFoldMax_le_iff]
            exact ⟨max_le hbestle (le_trans hVlt hs_lt.le),
              ((mmFoldMax_le_iff eval rest d (max best s) t).mp (le_of_eq hW')).2⟩
          · rcases mmFoldMax_cases eval rest d (max best s) with hcase | hcase
            · rw [hcase] at hW'
              have hlt : max best s < t := max_lt (lt_of_le_of_lt hba h1) hs_lt
              rw [hW'] at hlt
              exact absurd hlt (lt_irrefl t)
            · obtain ⟨q, hq, hqeq⟩ := hcase
              rw [hqeq] at hW'
              rw [← hW']
              exact le_mmFoldMax_of_mem eval rest d _ q hq
      · intro h
        have ht' : t ≤ mmFoldMax eval rest d (max best s) := ih3 h
        rcases mmFoldMax_cases eval rest d (max best s) with hcase | hcase
        · rw [hcase] at ht'
          have h1 : best < t := lt_of_le_of_lt hba (lt_of_lt_of_le hab h)
          have h2 : s < t := lt_of_le_of_lt (le_max_right a s)
            (lt_of_lt_of_le hprune h)
          exact absurd ht' (not_le.mpr (max_lt h1 h2))
        · obtain ⟨q, hq, hqeq⟩ := hcase
          rw [hqeq] at ht'
          exact le_trans ht' (le_mmFoldMax_of_mem eval rest d _ q hq)

/-- Fail-soft correctness of the minimizing loop, dual to `loopMax_KM`. -/
lemma loopMin_KM (eval : Board → ℝ) (d : Nat) (a : EReal)
    (hIH : ∀ (nb : Board) (be2 : EReal), a < be2 →
      KMrel ((alphaBeta eval nb d a be2 true).1) (minimax eval nb d true) a be2) :
    ∀ (l : List (Board × Move)) (be best : EReal) (bb : Option Board)
      (bm : Option Move), be ≤ best → a < be →
      KMrel ((loopMin eval l d a be best bb bm).1) (mmFoldMin eval l d best) a be := by
  intro l
  induction l with
  | nil =>
    intro be best bb bm hbb hab
    rw [loopMin_nil, mmFoldMin_nil]
    exact ⟨fun _ => le_refl _, fun _ _ => rfl, fun _ => le_refl _⟩
  | cons pr rest ih =>
    intro be best bb bm hbb hab
    rw [loopMin_cons_eq, mmFoldMin_cons_eq]
    obtain ⟨hc1, hc2, hc3⟩ := hIH pr.1 be hab
    set s := (alphaBeta eval pr.1 d a be true).1 with hs_def
    set V := minimax eval pr.1 d true with hV_def
    by_cases hprune : min be s ≤ a
    · rw [if_pos hprune]
      have hsa : s ≤ a := by
        rcases min_choice be s with hm | hm
        · rw [hm] at hprune
          exact absurd hab (not_lt.mpr hprune)
        · rw [hm] at hprune
          exact hprune
      have hVs : V ≤ s := hc1 hsa
      refine ⟨?_, ?_, ?_⟩
      · intro _
        refine le_min ?_ ?_
        · exact le_trans (mmFoldMin_le_acc eval rest d _) (min_le_left best V)
        · exact le_trans (le_trans (mmFoldMin_le_acc eval rest d _)
            (min_le_right best V)) hVs
      · intro h1 _
        exact absurd h1 (not_lt.mpr (le_trans (min_le_right best s) hsa))
      · intro h
        exact absurd (le_trans h (le_trans (min_le_right best s) hsa))
          (not_le.mpr hab)
    · rw [if_neg hprune]
      push_neg at hprune
      have hb2 : min be s ≤ min best s := min_le_min hbb (le_refl s)
      obtain ⟨ih1, ih2, ih3⟩ := ih (min be s) (min best s)
        (if s < best then some pr.1 else bb) (if s < best then some pr.2 else bm)
        hb2 hprune
      set t := (loopMin eval rest d a (min be s) (min best s)
        (if s < best then some pr.1 else bb)
        (if s < best then some pr.2 else bm)).1 with ht_def
      have htle : t ≤ min best s := loopMin_fst_le eval rest d a _ _ _ _
      have hsge : t ≤ s := le_trans htle (min_le_right best s)
      have hbestge : t ≤ best := le_trans htle (min_le_left best s)
      refine ⟨?_, ?_, ?_⟩
      · intro h
        have hW' : mmFoldMin eval rest d (min best s) ≤ t := ih1 h
        rcases mmFoldMin_cases eval rest d (min best s) with hcase | hcase
        · rw [hcase] at hW'
          rcases min_choice best s with hm | hm
          · rw [hm] at hW'
            exact le_trans (le_trans (mmFoldMin_le_acc eval rest d _)
              (min_le_left best V)) hW'
          · rw [hm] at hW'
            have hVle : V ≤ s := hc1 (le_trans hW' h)
            exact le_trans (le_trans (mmFoldMin_le_acc eval rest d _)
              (le_trans (min_le_right best V) hVle)) hW'
        · obtain ⟨q, hq, hqeq⟩ := hcase
          rw [hqeq] at hW'
          exact le_trans (mmFoldMin_le_of_mem eval rest d _ q hq) hW'
      · intro h1 h2
        by_cases hts : min be s ≤ t
        · have hst : s = t := by
            rcases min_choice be s with hm | hm
            · rw [hm] at hts
              exact absurd h2 (not_lt.mpr hts)
            · rw [hm] at hts
              exact le_antisymm hts hsge
          have hVs : V = s := by
            refine hc2 ?_ ?_
            · rw [hst]; exact h1
            · rw [hst]; exact h2
          rw [hVs]
          refine le_antisymm ?_ (ih3 hts)
          calc mmFoldMin eval rest d (min best s) ≤ min best s :=
            mmFoldMin_le_acc _ _ _ _
          _ ≤ s := min_le_right _ _
          _ = t := hst
        · push_neg at hts
          have hW' : mmFoldMin eval rest d (min best s) = t := ih2 h1 hts
          have hs_gt : t < s := lt_of_lt_of_le hts (min_le_right be s)
          have hVgt : s ≤ V := by
            rcases le_or_lt be s with hbs | hsb
            · exact hc3 hbs
            · exact le_of_eq (hc2 (lt_trans h1 hs_gt) hsb).symm
          refine le_antisymm ?_ ?_
          · rcases mmFoldMin_cases eval rest d (min best s) with hcase | hcase
            · rw [hcase] at hW'
              rcases min_choice best s with hm | hm
              · rw [hm] at hW'
                rw [← hW']
                exact le_trans (mmFoldMin_le_acc eval rest d _) (min_le_left best V)
              · rw [hm] at hW'
                exact absurd hW' (ne_of_lt hs_gt).symm
            · obtain ⟨q, hq, hqeq⟩ := hcase
              rw [hqeq] at hW'
              rw [← hW']
              exact mmFoldMin_le_of_mem eval rest d _ q hq
          · rw [le_mmFoldMin_iff]
            exact ⟨le_min hbestge (le_trans hs_gt.le hVgt),
              ((le_mmFoldMin_iff eval rest d (min best s) t).mp (le_of_eq hW'.symm)).2⟩
      · intro h
        have ht' : t ≤ mmFoldMin eval rest d (min best s) :=
          ih3 (le_trans (min_le_left be s) h)
        rw [le_mmFoldMin_iff]
        refine ⟨le_min hbestge (le_trans hsge (hc3 (le_trans h hsge))), ?_⟩
        exact ((le_mmFoldMin_iff eval rest d (min best s) t).mp ht').2

/-- Unfolding equation of `alphaBeta` at depth 0. -/
lemma alphaBeta_zero (eval : Board → ℝ) (b : Board) (a be : EReal) (maxi : Bool) :
    alphaBeta eval b 0 a be maxi = ((eval b : EReal), some b, none) := by
  simp [alphaBeta]

/-- Unfolding equation of `alphaBeta` at a successor depth. -/
lemma alphaBeta_succ (eval : Board → ℝ) (b : Board) (n : Nat) (a be : EReal)
    (maxi : Bool) :
    alphaBeta eval b (n + 1) a be maxi =
      if isGameOverB b then ((eval b : EReal), some b, none)
      else if ((generate_moves b (if maxi then Player.O else Player.X)).1).isEmpty then
        ((eval b : EReal), some b, none)
      else if maxi then
        loopMax eval ((generate_moves b (if maxi then Player.O else Player.X)).1)
          n a be ⊥ none none
      else
        loopMin eval ((generate_moves b (if maxi then Player.O else Player.X)).1)
          n a be ⊤ none none := by
  simp [alphaBeta]

/-- Unfolding equation of `minimax` at depth 0. -/
lemma minimax_zero (eval : Board → ℝ) (b : Board) (maxi : Bool) :
    minimax eval b 0 maxi = (eval b : EReal) := by
  simp [minimax]

/-- Unfolding equation of `minimax` at a successor depth. -/
lemma minimax_succ (eval : Board → ℝ) (b : Board) (n : Nat) (maxi : Bool) :
    minimax eval b (n + 1) maxi =
      if isGameOverB b then (eval b : EReal)
      else if ((generate_moves b (if maxi then Player.O else Player.X)).1).isEmpty then
        (eval b : EReal)
      else if maxi then
        mmFoldMax eval ((generate_moves b (if maxi then Player.O else Player.X)).1) n ⊥
      else
        mmFoldMin eval ((generate_moves b (if maxi then Player.O else Player.X)).1) n ⊤ := by
  simp [minimax]

/-- The alpha-beta score satisfies the fail-soft relation against minimax at
every window with alpha below beta, at every depth. -/
lemma alphaBeta_KM (eval : Board → ℝ) :
    ∀ (depth : Nat) (b : Board) (a be : EReal) (maxi : Bool), a < be →
      KMrel ((alphaBeta eval b depth a be maxi).1)
        (minimax eval b depth maxi) a be := by
  intro depth
  induction depth with
  | zero =>
    intro b a be maxi hab
    rw [alphaBeta_zero, minimax_zero]
    exact ⟨fun _ => le_refl _, fun _ _ => rfl, fun _ => le_refl _⟩
  | succ n ihn =>
    intro b a be maxi hab
    rw [alphaBeta_succ, minimax_succ]
    by_cases hgo : isGameOverB b
    · rw [if_pos hgo, if_pos hgo]
      exact ⟨fun _ => le_refl _, fun _ _ => rfl, fun _ => le_refl _⟩
    · rw [if_neg hgo, if_neg hgo]
      by_cases hmv : ((generate_moves b (if maxi then Player.O else Player.X)).1).isEmpty
      · rw [if_pos hmv, if_pos hmv]
        exact ⟨fun _ => le_refl _, fun _ _ => rfl, fun _ => le_refl _⟩
      · rw [if_neg hmv, if_neg hmv]
        cases maxi
        · rw [if_neg (by simp), if_neg (by simp)]
          exact loopMin_KM eval n a (fun nb be2 h => ihn nb a be2 true h)
            _ be ⊤ none none le_top hab
        · rw [if_pos rfl, if_pos rfl]
          exact loopMax_KM eval n be (fun nb a2 h => ihn nb a2 be false h)
            _ a ⊥ none none bot_le hab

/-- The minimax value is always finite: evaluations are real numbers and a
nonempty fold of finite values stays finite. -/
lemma minimax_finite (eval : Board → ℝ) :
    ∀ (depth : Nat) (b : Board) (maxi : Bool),
      ⊥ < minimax eval b depth maxi ∧ minimax eval b depth maxi < ⊤ := by
  intro depth
  induction depth with
  | zero =>
    intro b maxi
    rw [minimax_zero]
    exact ⟨EReal.bot_lt_coe _, EReal.coe_lt_top _⟩
  | succ n ihn =>
    intro b maxi
    rw [minimax_succ]
    by_cases hgo : isGameOverB b
    · rw [if_pos hgo]
      exact ⟨EReal.bot_lt_coe _, EReal.coe_lt_top _⟩
    · rw [if_neg hgo]
      by_cases hmv : ((generate_moves b (if maxi then Player.O else Player.X)).1).isEmpty
      · rw [if_pos hmv]
        exact ⟨EReal.bot_lt_coe _, EReal.coe_lt_top _⟩
      · rw [if_neg hmv]
        rcases hml : (generate_moves b (if maxi then Player.O else Player.X)).1 with
          _ | ⟨q, rest⟩
        · rw [hml] at hmv
          simp at hmv
        · cases maxi
          · rw [if_neg (by simp)]
            constructor
            · rcases mmFoldMin_cases eval (q :: rest) n ⊤ with hc | hc
              · rw [hc]
                exact bot_lt_top
              · obtain ⟨p2, _, hc⟩ := hc
                rw [hc]
                exact (ihn p2.1 true).1
            · exact lt_of_le_of_lt
                (mmFoldMin_le_of_mem eval (q :: rest) n ⊤ q (List.mem_cons_self _ _))
                (ihn q.1 true).2
          · rw [if_pos rfl]
            constructor
            · exact lt_of_lt_of_le (ihn q.1 false).1
                (le_mmFoldMax_of_mem eval (q :: rest) n ⊥ q (List.mem_cons_self _ _))
            · rcases mmFoldMax_cases eval (q :: rest) n ⊥ with hc | hc
              · rw [hc]
                exact bot_lt_top
              · obtain ⟨p2, _, hc⟩ := hc
                rw [hc]
                exact (ihn p2.1 false).2

/-- C3: at the initial window (alpha = -infinity, beta = +infinity) the
alpha-beta score equals the full unpruned minimax score at the same depth,
for the deterministic evaluation of an Opening or Middle phase (where the
Endgame jitter term never applies, whatever jitter draw `jit` would supply);
pruning never changes the reported optimal value. -/
theorem alpha_beta_equals_minimax (phase : GamePhase)
    (hphase : phase ≠ GamePhase.ENDGAME) (jit : Board → ℝ) (b : Board)
    (depth : Nat) (maximizing : Bool) :
    (alphaBeta (fun x => evaluate x phase (jit x)) b depth ⊥ ⊤ maximizing).1
      = minimax (fun x => evaluate x phase (jit x)) b depth maximizing := by
  obtain ⟨hfin1, hfin2⟩ :=
    minimax_finite (fun x => evaluate x phase (jit x)) depth b maximizing
  obtain ⟨h1, h2, h3⟩ :=
    alphaBeta_KM (fun x => evaluate x phase (jit x)) depth b ⊥ ⊤ maximizing bot_lt_top
  by_cases hle : (alphaBeta (fun x => evaluate x phase (jit x)) b depth ⊥ ⊤ maximizing).1 ≤ ⊥
  · exact absurd (le_trans (h1 hle) hle) (not_le.mpr hfin1)
  · by_cases hge : ⊤ ≤ (alphaBeta (fun x => evaluate x phase (jit x)) b depth ⊥ ⊤ maximizing).1
    · exact absurd (lt_of_le_of_lt (le_trans hge (h3 hge)) hfin2) (lt_irrefl _)
    · exact (h2 (not_le.mp hle) (not_le.mp hge)).symm

/-- Witness for C3: Opening phase, no jitter argument used, depth 1 on the
initial board. -/
theorem alpha_beta_equals_minimax_witness :
    (alphaBeta (fun x => evaluate x GamePhase.OPENING 0) initialBoard 1 ⊥ ⊤ true).1
      = minimax (fun x => evaluate x GamePhase.OPENING 0) initialBoard 1 true :=
  alpha_beta_equals_minimax GamePhase.OPENING (by decide) (fun _ => 0) initialBoard 1 true

/-- The maximizing loop's score stays below +infinity when the running best
and all child scores do. -/
lemma loopMax_fst_lt_top (eval : Board → ℝ) (d : Nat) (be : EReal)
    (hchild : ∀ (nb : Board) (a2 : EReal), (alphaBeta eval nb d a2 be false).1 < ⊤) :
    ∀ (l : List (Board × Move)) (a best : EReal) (bb : Option Board)
      (bm : Option Move), best < ⊤ → (loopMax eval l d a be best bb bm).1 < ⊤ := by
  intro l
  induction l with
  | nil =>
    intro a best bb bm hbest
    rw [loopMax_nil]
    exact hbest
  | cons q rest ih =>
    intro a best bb bm hbest
    rw [loopMax_cons_eq]
    split
    · exact max_lt hbest (hchild q.1 a)
    · exact ih _ _ _ _ (max_lt hbest (hchild q.1 a))

/-- The minimizing loop's score stays above -infinity when the running best
and all child scores do. -/
lemma loopMin_fst_gt_bot (eval : Board → ℝ) (d : Nat) (a : EReal)
    (hchild : ∀ (nb : Board) (be2 : EReal), ⊥ < (alphaBeta eval nb d a be2 true).1) :
    ∀ (l : List (Board × Move)) (be best : EReal) (bb : Option Board)
      (bm : Option Move), ⊥ < best → ⊥ < (loopMin eval l d a be best bb bm).1 := by
  intro l
  induction l with
  | nil =>
    intro be best bb bm hbest
    rw [loopMin_nil]
    exact hbest
  | cons q rest ih =>
    intro be best bb bm hbest
    rw [loopMin_cons_eq]
    split
    · exact lt_min hbest (hchild q.1 be)
    · exact ih _ _ _ _ (lt_min hbest (hchild q.1 be))

/-- The alpha-beta score is always finite. -/
lemma alphaBeta_fst_finite (eval : Board → ℝ) :
    ∀ (depth : Nat) (b : Board) (a be : EReal) (maxi : Bool),
      ⊥ < (alphaBeta eval b depth a be maxi).1 ∧
      (alphaBeta eval b depth a be maxi).1 < ⊤ := by
  intro depth
  induction depth with
  | zero =>
    intro b a be maxi
    rw [alphaBeta_zero]
    exact ⟨EReal.bot_lt_coe _, EReal.coe_lt_top _⟩
  | succ n ihn =>
    intro b a be maxi
    rw [alphaBeta_succ]
    by_cases hgo : isGameOverB b
    · rw [if_pos hgo]
      exact ⟨EReal.bot_lt_coe _, EReal.coe_lt_top _⟩
    · rw [if_neg hgo]
      by_cases hmv : ((generate_moves b (if maxi then Player.O else Player.X)).1).isEmpty
      · rw [if_pos hmv]
        exact ⟨EReal.bot_lt_coe _, EReal.coe_lt_top _⟩
      · rw [if_neg hmv]
        rcases hml : (generate_moves b (if maxi then Player.O else Player.X)).1 with
          _ | ⟨q, rest⟩
        · rw [hml] at hmv
          simp at hmv
        · cases maxi
          · rw [if_neg (by simp)]
            refine ⟨loopMin_fst_gt_bot eval n a
              (fun nb be2 => (ihn nb a be2 true).1) _ _ _ _ _ bot_lt_top, ?_⟩
            rw [loopMin_cons_eq]
            split
            · exact lt_of_le_of_lt (min_le_right _ _) (ihn q.1 a be true).2
            · exact lt_of_le_of_lt
                (le_trans (loopMin_fst_le eval rest n a _ _ _ _) (min_le_right _ _))
                (ihn q.1 a be true).2
          · rw [if_pos rfl]
            refine ⟨?_, loopMax_fst_lt_top eval n be
              (fun nb a2 => (ihn nb a2 be false).2) _ _ _ _ _ bot_lt_top⟩
            rw [loopMax_cons_eq]
            split
            · exact lt_of_lt_of_le (ihn q.1 a be false).1 (le_max_right _ _)
            · exact lt_of_lt_of_le (lt_of_lt_of_le (ihn q.1 a be false).1
                (le_max_right _ _)) (loopMax_fst_ge eval rest n be _ _ _ _)

/-- The maximizing loop keeps returning some board and some move once both
are present. -/
lemma loopMax_isSome_preserved (eval : Board → ℝ) (d : Nat) (be : EReal) :
    ∀ (l : List (Board × Move)) (a best : EReal) (bb : Option Board)
      (bm : Option Move), bb.isSome = true → bm.isSome = true →
      (loopMax eval l d a be best bb bm).2.1.isSome = true ∧
      (loopMax eval l d a be best bb bm).2.2.isSome = true := by
  intro l
  induction l with
  | nil =>
    intro a best bb bm h1 h2
    rw [loopMax_nil]
    exact ⟨h1, h2⟩
  | cons q rest ih =>
    intro a best bb bm h1 h2
    have hb2 : (if best < (alphaBeta eval q.1 d a be false).1 then
        some q.1 else bb).isSome = true := by
      split
      · rfl
      · exact h1
    have hm2 : (if best < (alphaBeta eval q.1 d a be false).1 then
        some q.2 else bm).isSome = true := by
      split
      · rfl
      · exact h2
    rw [loopMax_cons_eq]
    split
    · exact ⟨hb2, hm2⟩
    · exact ih _ _ _ _ hb2 hm2

/-- The minimizing loop keeps returning some board and some move once both
are present. -/
lemma loopMin_isSome_preserved (eval : Board → ℝ) (d : Nat) (a : EReal) :
    ∀ (l : List (Board × Move)) (be best : EReal) (bb : Option Board)
      (bm : Option Move), bb.isSome = true → bm.isSome = true →
      (loopMin eval l d a be best bb bm).2.1.isSome = true ∧
      (loopMin eval l d a be best bb bm).2.2.isSome = true := by
  intro l
  induction l with
  | nil =>
    intro be best bb bm h1 h2
    rw [loopMin_nil]
    exact ⟨h1, h2⟩
  | cons q rest ih =>
    intro be best bb bm h1 h2
    have hb2 : (if (alphaBeta eval q.1 d a be true).1 < best then
        some q.1 else bb).isSome = true := by
      split
      · rfl
      · exact h1
    have hm2 : (if (alphaBeta eval q.1 d a be true).1 < best then
        some q.2 else bm).isSome = true := by
      split
      · rfl
      · exact h2
    rw [loopMin_cons_eq]
    split
    · exact ⟨hb2, hm2⟩
    · exact ih _ _ _ _ hb2 hm2

/-- On a nonempty move list started at best = -infinity, the maximizing loop
returns some board and some move: the first finite child score strictly
improves on the infinite initial bound. -/
lemma loopMax_isSome_start (eval : Board → ℝ) (d : Nat) (be : EReal)
    (q : Board × Move) (rest : List (Board × Move)) (a : EReal)
    (hq : ⊥ < (alphaBeta eval q.1 d a be false).1) :
    (loopMax eval (q :: rest) d a be ⊥ none none).2.1.isSome = true ∧
    (loopMax eval (q :: rest) d a be ⊥ none none).2.2.isSome = true := by
  rw [loopMax_cons_eq]
  rw [if_pos hq, if_pos hq]
  split
  · exact ⟨rfl, rfl⟩
  · exact loopMax_isSome_preserved eval d be rest _ _ _ _ rfl rfl

/-- Dual of `loopMax_isSome_start` for the minimizing loop. -/
lemma loopMin_isSome_start (eval : Board → ℝ) (d : Nat) (a : EReal)
    (q : Board × Move) (rest : List (Board × Move)) (be : EReal)
    (hq : (alphaBeta eval q.1 d a be true).1 < ⊤) :
    (loopMin eval (q :: rest) d a be ⊤ none none).2.1.isSome = true ∧
    (loopMin eval (q :: rest) d a be ⊤ none none).2.2.isSome = true := by
  rw [loopMin_cons_eq]
  rw [if_pos hq, if_pos hq]
  split
  · exact ⟨rfl, rfl⟩
  · exact loopMin_isSome_preserved eval d a rest _ _ _ _ rfl rfl

/-- Single X man at (4,1) with no O piece at all: the mover X has legal
moves, yet `_is_game_over` is true because O has none. -/
def bLoneX : Board := fun p => if p = ⟨4, 1⟩ then Piece.x else Piece.empty

/-- Counterexample to C9 as stated: on `bLoneX` the mover X has a legal move
and the depth is positive, yet the search returns no best move, because the
game-over check (the opponent has no moves) short-circuits to the evaluation
leaf before the move loop runs. -/
theorem alpha_beta_none_counterexample :
    ((generate_moves bLoneX Player.X).1).isEmpty = false ∧
    isGameOverB bLoneX = true ∧
    (alphaBeta (fun x => evaluate x GamePhase.ENDGAME 0) bLoneX 1 ⊥ ⊤ false).2.2
      = none := by
  refine ⟨by decide, by decide, ?_⟩
  rw [show (1 : Nat) = 0 + 1 from rfl, alphaBeta_succ, if_pos (by decide)]

/-- C9 (amended: besides the mover having at least one legal move, the
game-over check must also fail, i.e. the opponent must have a legal move
too): then at any positive depth and any window the alpha-beta search
returns a non-None best board and a non-None best move, since the first
candidate's finite score strictly improves on the infinite initial bound. -/
theorem alpha_beta_returns_move (eval : Board → ℝ) (b : Board) (depth : Nat)
    (a be : EReal) (maximizing : Bool) (hd : depth ≠ 0)
    (hgo : isGameOverB b = false)
    (hmv : ((generate_moves b (if maximizing then Player.O else Player.X)).1).isEmpty
      = false) :
    (alphaBeta eval b depth a be maximizing).2.1.isSome = true ∧
    (alphaBeta eval b depth a be maximizing).2.2.isSome = true := by
  rcases depth with _ | n
  · exact absurd rfl hd
  · rw [alphaBeta_succ, if_neg (by simp [hgo]), if_neg (by simp [hmv])]
    rcases hml : (generate_moves b (if maximizing then Player.O else Player.X)).1 with
      _ | ⟨q, rest⟩
    · rw [hml] at hmv
      simp at hmv
    · cases maximizing
      · rw [if_neg (by simp)]
        exact loopMin_isSome_start eval n a q rest be
          (alphaBeta_fst_finite eval n q.1 a be true).2
      · rw [if_pos rfl]
        exact loopMax_isSome_start eval n be q rest a
          (alphaBeta_fst_finite eval n q.1 a be false).1

/-- Witness for C9 (amended) on the initial board at depth 2. -/
theorem alpha_beta_returns_move_witness :
    (alphaBeta (fun x => evaluate x GamePhase.OPENING 0) initialBoard 2 ⊥ ⊤ true).2.1.isSome
      = true ∧
    (alphaBeta (fun x => evaluate x GamePhase.OPENING 0) initialBoard 2 ⊥ ⊤ true).2.2.isSome
      = true :=
  alpha_beta_returns_move (fun x => evaluate x GamePhase.OPENING 0) initialBoard 2
    ⊥ ⊤ true (by decide) (by decide) (by decide)

end Checkers
